import Mathlib

/-!
Verification development for the codersmasherai project-management app.

Part 1 embeds the browser-side SSE stream decoder, the incremental decode
loop of `streamChat` in `src/components/ai-assistant/AIChat.tsx`
(lines 56-107).  Strings are modelled as `List Char`; `JSON.parse`
followed by the `parsed.choices?.[0]?.delta?.content` access is a platform
primitive and is modelled as a parameter `parse : Parse` where
`none` stands for a parse exception, `some none` for a parsed object
without a (truthy) content string, and `some (some c)` for content `c`.

Part 2 embeds the `ai-assistant` Supabase edge function (`serve`,
`getProjectContext`, `getWorkspaceContext`).  Database query results are
modelled by a `Db` record holding the `data` field of each query
(`none` when the query errored and `data` is null); dates are modelled as
integer timestamps compared against a `now` parameter.
-/

/-- Strings of the JavaScript source, modelled as lists of characters. -/
abbrev Str := List Char

/-- Model of `JSON.parse(jsonStr)` followed by the
`parsed.choices?.[0]?.delta?.content` access: `none` = the parse threw,
`some none` = parsed but no content string, `some (some c)` = content `c`. -/
abbrev Parse := Str → Option (Option Str)

/-- Whitespace as stripped by JavaScript `String.prototype.trim`. -/
def ws (c : Char) : Bool := c.isWhitespace

/-- Left part of `trim`: drop leading whitespace. -/
def ltrim (s : Str) : Str := s.dropWhile ws

/-- Right part of `trim`: drop trailing whitespace. -/
def rtrim (s : Str) : Str := (s.reverse.dropWhile ws).reverse

/-- JavaScript `s.trim()`. -/
def trimC (s : Str) : Str := ltrim (rtrim s)

/-- JavaScript `line.endsWith("\r") ? line.slice(0, -1) : line`. -/
def stripCR (s : Str) : Str := if s.getLast? = some '\r' then s.dropLast else s

/-- The `"data: "` prefix tested by `line.startsWith("data: ")`. -/
def dataTag : Str := "data: ".toList

/-- The `"[DONE]"` sentinel payload. -/
def doneChars : Str := "[DONE]".toList

/-- What the decode loop does with one complete line of the buffer
(`AIChat.tsx` lines 68-88): skip it (`continue`), stop the stream
(`[DONE]`), push it back and wait for more input (parse exception), or
emit its content delta. -/
inductive LineAction where
  | skip
  | stop
  | stick
  | emit (c : Str)
deriving DecidableEq

/-- The guards of the loop body after the `\r` strip: skip comment and
blank lines, skip lines without the data prefix, recognise the `[DONE]`
sentinel, and otherwise parse the payload. -/
def lineStepRaw (parse : Parse) (l : Str) : LineAction :=
  if l.head? = some ':' ∨ trimC l = [] then .skip
  else if ¬ (l.take 6 = dataTag) then .skip
  else
    let j := trimC (l.drop 6)
    if j = doneChars then .stop
    else
      match parse j with
      | none => .stick
      | some none => .skip
      | some (some c) => if c = [] then .skip else .emit c

/-- One iteration of the inner `while` body of `streamChat` on an already
extracted line: strip a trailing `\r`, then apply the guards. -/
def lineStep (parse : Parse) (raw : Str) : LineAction :=
  lineStepRaw parse (stripCR raw)

/-- Split a buffer at its first `'\n'` (JavaScript
`textBuffer.indexOf("\n")` plus the two `slice` calls). -/
def breakNL : Str → Option (Str × Str)
  | [] => none
  | c :: rest =>
    if c = '\n' then some ([], rest)
    else
      match breakNL rest with
      | none => none
      | some (l, r) => some (c :: l, r)

/-- JavaScript `textBuffer.split("\n")`: the newline-separated segments of
a buffer (the final segment is the trailing incomplete line). -/
def segs : Str → List Str
  | [] => [[]]
  | c :: r =>
    if c = '\n' then [] :: segs r
    else
      match segs r with
      | s :: ss => (c :: s) :: ss
      | [] => [[c]]

/-- Rejoin segments with `'\n'`, inverse of `segs`. -/
def unsegs : List Str → Str
  | [] => []
  | s :: ss =>
    match ss with
    | [] => s
    | _ :: _ => s ++ '\n' :: unsegs ss

/-- The inner `while ((newlineIndex = textBuffer.indexOf("\n")) !== -1)`
loop of `streamChat`, acting on the newline decomposition of the buffer:
returns the emitted deltas in order, the remaining buffer, and whether the
`[DONE]` sentinel stopped the stream.  The last segment is the incomplete
trailing line and is never processed.  On a parse exception the stripped
line is pushed back (`textBuffer = line + "\n" + textBuffer`) and the loop
breaks. -/
def processSegs (parse : Parse) : List Str → List Str × Str × Bool
  | [] => ([], [], false)
  | line :: rest =>
    match rest with
    | [] => ([], line, false)
    | _ :: _ =>
      match lineStep parse line with
      | .skip => processSegs parse rest
      | .stop => ([], unsegs rest, true)
      | .stick => ([], stripCR line ++ '\n' :: unsegs rest, false)
      | .emit c =>
        let (e, b, d) := processSegs parse rest
        (c :: e, b, d)

/-- The inner decode loop on a raw buffer. -/
def processLines (parse : Parse) (buf : Str) : List Str × Str × Bool :=
  processSegs parse (segs buf)

/-- One line of the final flush (`AIChat.tsx` lines 94-106): empty raw
strings are skipped, a `[DONE]` line is skipped (`continue`, it does not
stop the flush), and parse exceptions are swallowed (`catch {}`). -/
def flushLine (parse : Parse) (raw : Str) : Option Str :=
  if raw = [] then none
  else
    match lineStep parse raw with
    | .emit c => some c
    | _ => none

/-- The final flush (`AIChat.tsx` lines 92-107): if the remaining buffer
is not blank, process every newline-separated segment. -/
def flushEmits (parse : Parse) (buf : Str) : List Str :=
  if trimC buf = [] then []
  else (segs buf).filterMap (flushLine parse)

/-- The outer `while (!streamDone)` read loop: append each chunk to the
buffer and run the inner loop; once the sentinel set `streamDone`, no
further chunk is read. -/
def feedChunks (parse : Parse) : List Str → Str → Bool → List Str × Str × Bool
  | [], buf, d => ([], buf, d)
  | c :: cs, buf, d =>
    if d then ([], buf, d)
    else
      let (e, b, d') := processLines parse (buf ++ c)
      let (e', b', d'') := feedChunks parse cs b d'
      (e ++ e', b', d'')

/-- The delta events emitted by `streamChat`'s decode section for a given
sequence of chunks: the loop emissions followed by the final flush. -/
def streamChatDecode (parse : Parse) (chunks : List Str) : List Str :=
  let (e, b, _) := feedChunks parse chunks [] false
  e ++ flushEmits parse b

/-- A concrete stand-in for the platform JSON parser, defined on the
payloads used in the concrete examples below: `{1}` parses to a delta
with content `"A"`, everything else throws. -/
def parseFix : Parse := fun j =>
  if j = "\x7b1\x7d".toList then some (some "A".toList) else none

/-!
Part 2: the `ai-assistant` Supabase edge function (the Chat Relay and the
Context Assembler of the spec).  The `serve` handler, `getProjectContext`
and `getWorkspaceContext` are translated from the edge function source
(`src/unnamed/part_003` lines 410-644).
-/

/-- JavaScript truthiness of a nullable string (`null`/`undefined` and
`""` are falsy). -/
def jsTruthyStr : Option Str → Bool
  | some s => !s.isEmpty
  | none => false

/-- JavaScript `a || b` where `a` is a nullable string and `b` a string
default. -/
def jsOrStr (a : Option Str) (b : Str) : Str :=
  match a with
  | some s => if s.isEmpty then b else s
  | none => b

/-- JavaScript `a || b` where both operands are nullable strings. -/
def jsOrOpt (a b : Option Str) : Option Str :=
  match a with
  | some s => if s.isEmpty then b else some s
  | none => b

/-- The joined `profiles:assigned_to(full_name, email)` row on a task. -/
structure ProfileJoin where
  full_name : Option Str
  email : Option Str
deriving DecidableEq

/-- A row of the `tasks` table as selected by `getProjectContext`
(`select("*, profiles:assigned_to(full_name, email)")`).  `due_date` is a
nullable date modelled as an integer timestamp. -/
structure TaskRow where
  id : Str
  title : Str
  status : Str
  priority : Str
  due_date : Option Int
  assigned_to : Option Str
  profiles : Option ProfileJoin
deriving DecidableEq

/-- The joined `profiles:user_id(id, full_name, email)` row on a project
member. -/
structure MemberProfile where
  id : Str
  full_name : Option Str
  email : Option Str
deriving DecidableEq

/-- A row of `project_members` as selected by `getProjectContext`. -/
structure MemberRow where
  profiles : Option MemberProfile
deriving DecidableEq

/-- A row of the `projects` table. -/
structure ProjectRow where
  id : Str
  name : Str
  description : Option Str
  status : Str
  start_date : Option Str
  end_date : Option Str
deriving DecidableEq

/-- A row of `projects` as selected by `getWorkspaceContext`
(`select("id, name, status")`). -/
structure WsProject where
  id : Str
  name : Str
  status : Str
deriving DecidableEq

/-- A row of `tasks` as selected by `getWorkspaceContext`. -/
structure WsTask where
  id : Str
  title : Str
  status : Str
  priority : Str
  due_date : Option Int
  project_id : Option Str
deriving DecidableEq

/-- The `data` results of the backend queries issued while handling one
request.  A field is `none` when the corresponding query returned an
error (supabase-js then reports `data: null`; it does not throw). -/
structure Db where
  project : Option ProjectRow
  tasks : Option (List TaskRow)
  members : Option (List MemberRow)
  wsProjects : Option (List WsProject)
  wsMyTasks : Option (List WsTask)
  wsProfiles : Option (List MemberProfile)
deriving DecidableEq

/-- The `taskStats` aggregate of the project context snapshot. -/
structure TaskStats where
  total : Nat
  todo : Nat
  inProgress : Nat
  done : Nat
  overdue : Nat
deriving DecidableEq

/-- An entry of `recentTasks` in the project context snapshot. -/
structure RecentTask where
  id : Str
  title : Str
  status : Str
  priority : Str
  dueDate : Option Int
  assignee : Str
deriving DecidableEq

/-- An entry of `teamMembers` in the project context snapshot
(`id` and `name` are undefined when the member has no joined profile). -/
structure TeamMember where
  id : Option Str
  name : Option Str
  taskCount : Nat
deriving DecidableEq

/-- The `project` section of the snapshot. -/
structure ProjectInfo where
  id : Str
  name : Str
  description : Option Str
  status : Str
  startDate : Option Str
  endDate : Option Str
deriving DecidableEq

/-- The project context snapshot returned by `getProjectContext`
(`recentTasks`/`teamMembers` are undefined when the corresponding query
returned no data). -/
structure Context where
  project : Option ProjectInfo
  taskStats : TaskStats
  recentTasks : Option (List RecentTask)
  teamMembers : Option (List TeamMember)
  workloadDistribution : List (Str × Nat)
deriving DecidableEq

/-- Increment the count of key `k` in the workload record, inserting it
at the end when absent (JavaScript object insertion-order semantics). -/
def bumpKey (k : Str) : List (Str × Nat) → List (Str × Nat)
  | [] => [(k, 1)]
  | (k', n) :: rest => if k' = k then (k', n + 1) :: rest else (k', n) :: bumpKey k rest

/-- The `tasks?.forEach` accumulation over an explicit accumulator. -/
def buildWorkloadFrom (acc : List (Str × Nat)) : List TaskRow → List (Str × Nat)
  | [] => acc
  | t :: ts =>
    buildWorkloadFrom
      (match t.assigned_to with
       | some a => if a.isEmpty then acc else bumpKey a acc
       | none => acc)
      ts

/-- The `workload` record built by
`tasks?.forEach(task => { if (task.assigned_to) workload[task.assigned_to] = (workload[task.assigned_to] || 0) + 1 })`. -/
def buildWorkload (ts : List TaskRow) : List (Str × Nat) :=
  buildWorkloadFrom [] ts

/-- JavaScript `workload[k] || 0`: first-match lookup in the
insertion-ordered record. -/
def lookupW : List (Str × Nat) → Str → Nat
  | [], _ => 0
  | e :: rest, k => if e.1 = k then e.2 else lookupW rest k

/-- Status literals used by the edge function. -/
def todoStr : Str := "todo".toList

def inProgressStr : Str := "in_progress".toList

def doneStr : Str := "done".toList

def unassignedStr : Str := "Unassigned".toList

/-- The `assignee` display name of a recent task:
`t.profiles?.full_name || "Unassigned"`. -/
def taskAssignee (t : TaskRow) : Str :=
  jsOrStr (t.profiles.bind fun p => p.full_name) unassignedStr

/-- `getProjectContext` (edge function lines 539-602): builds the project
context snapshot from the three query results.  `now` is the timestamp of
`new Date()`. -/
def getProjectContext (db : Db) (now : Int) : Context :=
  let taskStats : TaskStats :=
    { total := (db.tasks.map fun ts => ts.length).getD 0
      todo := (db.tasks.map fun ts =>
        (ts.filter fun t => decide (t.status = todoStr)).length).getD 0
      inProgress := (db.tasks.map fun ts =>
        (ts.filter fun t => decide (t.status = inProgressStr)).length).getD 0
      done := (db.tasks.map fun ts =>
        (ts.filter fun t => decide (t.status = doneStr)).length).getD 0
      overdue := (db.tasks.map fun ts =>
        (ts.filter fun t =>
          (match t.due_date with
           | some d => decide (d < now)
           | none => false)
          && !decide (t.status = doneStr)).length).getD 0 }
  let workload := buildWorkload (db.tasks.getD [])
  { project := db.project.map fun p =>
      { id := p.id, name := p.name, description := p.description,
        status := p.status, startDate := p.start_date, endDate := p.end_date }
    taskStats := taskStats
    recentTasks := db.tasks.map fun ts =>
      (ts.take 10).map fun t =>
        { id := t.id, title := t.title, status := t.status,
          priority := t.priority, dueDate := t.due_date,
          assignee := taskAssignee t }
    teamMembers := db.members.map fun ms =>
      ms.map fun m =>
        { id := m.profiles.map fun p => p.id
          name := jsOrOpt (m.profiles.bind fun p => p.full_name)
                          (m.profiles.bind fun p => p.email)
          taskCount :=
            match m.profiles with
            | some p => lookupW workload p.id
            | none => 0 }
    workloadDistribution := workload }

/-- An entry of `myPendingTasks` in the workspace snapshot. -/
structure PendingTask where
  id : Str
  title : Str
  status : Str
  priority : Str
  dueDate : Option Int
deriving DecidableEq

/-- An entry of `teamMembers` in the workspace snapshot. -/
structure WsMember where
  id : Str
  name : Option Str
deriving DecidableEq

/-- The workspace context snapshot returned by `getWorkspaceContext`. -/
structure WorkspaceContext where
  projects : Option (List WsProject)
  myPendingTasks : Option (List PendingTask)
  teamMembers : Option (List WsMember)
deriving DecidableEq

/-- `getWorkspaceContext` (edge function lines 604-644). -/
def getWorkspaceContext (db : Db) : WorkspaceContext :=
  { projects := db.wsProjects.map fun ps =>
      ps.map fun p => { id := p.id, name := p.name, status := p.status }
    myPendingTasks := db.wsMyTasks.map fun ts =>
      ts.map fun t =>
        { id := t.id, title := t.title, status := t.status,
          priority := t.priority, dueDate := t.due_date }
    teamMembers := db.wsProfiles.map fun ps =>
      ps.map fun p => { id := p.id, name := jsOrOpt p.full_name p.email } }

/-- The body of a `Response` built by `serve`: a JSON error object, the
`{ context }` JSON of the `get_context` action, the relayed upstream
event-stream, or the empty body of the OPTIONS pre-flight answer. -/
inductive RespBody where
  | errorJson (msg : Str)
  | contextJson (ctx : Context)
  | stream
  | empty
deriving DecidableEq

/-- An HTTP response of `serve` (`new Response(...)` defaults to
status 200). -/
structure Response where
  status : Nat
  body : RespBody
deriving DecidableEq

/-- Which context assembler ran while handling the request, and its
result. -/
inductive CtxKind where
  | project (c : Context)
  | workspace (w : WorkspaceContext)
deriving DecidableEq

/-- Observable outcome of one `serve` invocation: the response, which
context assembly ran (if any), and how many requests were sent to the
upstream model endpoint. -/
structure ServeResult where
  response : Response
  assembled : Option CtxKind
  upstreamCalls : Nat
deriving DecidableEq

/-- The parsed JSON request body
(`const { messages, projectId, action } = await req.json()`). -/
structure ReqBody where
  messages : List (Str × Str)
  projectId : Option Str
  action : Option Str
deriving DecidableEq

/-- An incoming HTTP request.  `jsonBody` is the outcome of
`await req.json()`: `Except.error m` models the exception (with message
`m`) thrown on a malformed body. -/
structure Request where
  method : Str
  authHeader : Option Str
  jsonBody : Except Str ReqBody

/-- The environment of one request: token verification
(`supabase.auth.getUser`, `none` on error or missing user), the
`LOVABLE_API_KEY` variable, the status of the upstream fetch response,
the database results, and the current time. -/
structure Env where
  getUser : Str → Option Str
  lovableApiKey : Option Str
  upstreamStatus : Nat
  db : Db
  now : Int

/-- JavaScript `s.replace(pat, "")`: removes the first occurrence of
`pat`. -/
def replaceFirst (pat : Str) : Str → Str
  | [] => []
  | c :: rest =>
    if (c :: rest).take pat.length = pat then (c :: rest).drop pat.length
    else c :: replaceFirst pat rest

/-- Literals of the edge function. -/
def noAuthMsg : Str := "No authorization header".toList

def invalidTokenMsg : Str := "Invalid token".toList

def lovableKeyMsg : Str := "LOVABLE_API_KEY is not configured".toList

def rateLimitMsg : Str := "Rate limit exceeded. Please try again later.".toList

def creditsMsg : Str := "AI credits exhausted. Please add more credits.".toList

def aiServiceErrMsg : Str := "AI service error".toList

def getContextAction : Str := "get_context".toList

def bearerPat : Str := "Bearer ".toList

def optionsMethod : Str := "OPTIONS".toList

/-- The `try` block of the `serve` handler (edge function lines 438-528):
returns which context assembly ran, the number of upstream requests, and
either a response or a thrown exception's message. -/
def serveTry (env : Env) (req : Request) : Option CtxKind × Nat × Except Str Response :=
  match req.authHeader with
  | none => (none, 0, Except.ok ⟨401, .errorJson noAuthMsg⟩)
  | some authHeader =>
    let token := replaceFirst bearerPat authHeader
    match env.getUser token with
    | none => (none, 0, Except.ok ⟨401, .errorJson invalidTokenMsg⟩)
    | some _user =>
      match req.jsonBody with
      | Except.error e => (none, 0, Except.error e)
      | Except.ok body =>
        if body.action = some getContextAction then
          (some (.project (getProjectContext env.db env.now)), 0,
            Except.ok ⟨200, .contextJson (getProjectContext env.db env.now)⟩)
        else
          let assembledCtx :=
            if jsTruthyStr body.projectId then
              CtxKind.project (getProjectContext env.db env.now)
            else
              CtxKind.workspace (getWorkspaceContext env.db)
          match env.lovableApiKey with
          | none => (some assembledCtx, 0, Except.error lovableKeyMsg)
          | some _key =>
            if ¬ (200 ≤ env.upstreamStatus ∧ env.upstreamStatus < 300) then
              if env.upstreamStatus = 429 then
                (some assembledCtx, 1, Except.ok ⟨429, .errorJson rateLimitMsg⟩)
              else if env.upstreamStatus = 402 then
                (some assembledCtx, 1, Except.ok ⟨402, .errorJson creditsMsg⟩)
              else
                (some assembledCtx, 1, Except.ok ⟨500, .errorJson aiServiceErrMsg⟩)
            else
              (some assembledCtx, 1, Except.ok ⟨200, .stream⟩)

/-- The `serve` handler: OPTIONS pre-flight short-circuit, then the `try`
block with its `catch` clause, which turns any exception into a 500 JSON
response whose `error` field is the exception's own message. -/
def serve (env : Env) (req : Request) : ServeResult :=
  if req.method = optionsMethod then ⟨⟨200, .empty⟩, none, 0⟩
  else
    match serveTry env req with
    | (ctx, ups, Except.ok resp) => ⟨resp, ctx, ups⟩
    | (ctx, ups, Except.error msg) => ⟨⟨500, .errorJson msg⟩, ctx, ups⟩

/-!
Concrete fixtures used by the witnesses and counterexamples below.
-/

/-- A database where every query returns an error (`data: null`). -/
def dbEmpty : Db := ⟨none, none, none, none, none, none⟩

/-- An environment that authenticates every token. -/
def envAuthed : Env :=
  ⟨fun _ => some "u1".toList, some "k1".toList, 200, dbEmpty, 0⟩

/-- A plain chat request with a valid body. -/
def reqPost : Request :=
  ⟨"POST".toList, some "Bearer tok".toList, Except.ok ⟨[], none, none⟩⟩

/-- A request with no authorization header. -/
def reqNoAuth : Request := ⟨"POST".toList, none, Except.ok ⟨[], none, none⟩⟩

/-- A `get_context` action request. -/
def reqGetCtx : Request :=
  ⟨"POST".toList, some "Bearer tok".toList,
   Except.ok ⟨[], some "p1".toList, some getContextAction⟩⟩

/-- A request whose body failed to parse. -/
def reqBadBody : Request :=
  ⟨"POST".toList, some "Bearer tok".toList,
   Except.error "Unexpected end of JSON input".toList⟩

/-- An environment with the upstream credential unset. -/
def envNoKey : Env := ⟨fun _ => some "u1".toList, none, 200, dbEmpty, 0⟩

/-- An environment whose upstream endpoint answers 429. -/
def env429 : Env := ⟨fun _ => some "u1".toList, some "k1".toList, 429, dbEmpty, 0⟩

/-- A task whose assignee profile has an email but no full name. -/
def taskEmailOnly : TaskRow :=
  ⟨"t1".toList, "T1".toList, todoStr, "low".toList, none, some "u1".toList,
   some ⟨none, some "a@b.c".toList⟩⟩

/-- A database whose tasks query returns only `taskEmailOnly`. -/
def dbEmailOnly : Db := ⟨none, some [taskEmailOnly], none, none, none, none⟩

/-- A task due yesterday (relative to `now = 0`) with status `todo`. -/
def taskDueTodo : TaskRow :=
  ⟨"t2".toList, "T2".toList, todoStr, "low".toList, some (-1), none, none⟩

/-- A task due yesterday with status `done`. -/
def taskDueDone : TaskRow :=
  ⟨"t3".toList, "T3".toList, doneStr, "low".toList, some (-1), none, none⟩

/-- A database holding the two yesterday-due tasks. -/
def dbYesterday : Db := ⟨none, some [taskDueTodo, taskDueDone], none, none, none, none⟩

/-- A single task assigned to `u1` and already done. -/
def taskDoneAssigned : TaskRow :=
  ⟨"t4".toList, "T4".toList, doneStr, "low".toList, none, some "u1".toList,
   some ⟨some "Ann".toList, none⟩⟩

/-- A database where member `u1` has exactly one (done) task. -/
def dbOneDone : Db :=
  ⟨none, some [taskDoneAssigned],
   some [⟨some ⟨"u1".toList, some "Ann".toList, none⟩⟩], none, none, none⟩

/-- A project row fixture. -/
def projRow : ProjectRow :=
  ⟨"p1".toList, "P".toList, none, "active".toList, none, none⟩

/-- A database where the project query succeeded but the tasks lookup
errored (`data: null`). -/
def dbTasksErr : Db :=
  ⟨some projRow, none, some [⟨some ⟨"u1".toList, some "Ann".toList, none⟩⟩],
   none, none, none⟩

/-- An authenticated environment over `dbTasksErr` with a healthy
upstream. -/
def envTasksErr : Env :=
  ⟨fun _ => some "u1".toList, some "k1".toList, 200, dbTasksErr, 0⟩

/-- A chat request scoped to project `p1`. -/
def reqProject : Request :=
  ⟨"POST".toList, some "Bearer tok".toList, Except.ok ⟨[], some "p1".toList, none⟩⟩

/-!
Claim C3: missing-auth guard.
-/

/-- C3: a request without an authorization header gets the 401
`No authorization header` JSON error, and neither context assembler nor
the upstream endpoint is ever invoked. -/
theorem serve_missing_auth (env : Env) (req : Request)
    (hm : req.method ≠ optionsMethod) (ha : req.authHeader = none) :
    serve env req = ⟨⟨401, .errorJson noAuthMsg⟩, none, 0⟩ := by
  simp [serve, serveTry, hm, ha]

/-- Witness for C3 at a concrete request. -/
theorem serve_missing_auth_witness :
    serve envAuthed reqNoAuth = ⟨⟨401, .errorJson noAuthMsg⟩, none, 0⟩ :=
  serve_missing_auth envAuthed reqNoAuth (by decide) rfl

/-!
Claim C9: the undocumented `get_context` non-streaming mode.
-/

/-- C9: an authenticated request with `action = "get_context"` gets a
200 response whose body is the `{ context }` JSON of the project context
snapshot; the upstream model endpoint is never contacted and no
event-stream is returned. -/
theorem serve_get_context_mode (env : Env) (req : Request) (a u : Str) (b : ReqBody)
    (hm : req.method ≠ optionsMethod) (ha : req.authHeader = some a)
    (hu : env.getUser (replaceFirst bearerPat a) = some u)
    (hb : req.jsonBody = Except.ok b) (hact : b.action = some getContextAction) :
    serve env req =
      ⟨⟨200, .contextJson (getProjectContext env.db env.now)⟩,
       some (.project (getProjectContext env.db env.now)), 0⟩ := by
  simp [serve, serveTry, hm, ha, hu, hb, hact]

/-- Witness for C9 at a concrete request. -/
theorem serve_get_context_mode_witness :
    serve envAuthed reqGetCtx =
      ⟨⟨200, .contextJson (getProjectContext dbEmpty 0)⟩,
       some (.project (getProjectContext dbEmpty 0)), 0⟩ :=
  serve_get_context_mode envAuthed reqGetCtx "Bearer tok".toList "u1".toList
    ⟨[], some "p1".toList, some getContextAction⟩ (by decide) rfl rfl rfl rfl

/-!
Claim C10: exception messages are exposed to the client.
-/

/-- C10: any exception escaping the `try` block of an authenticated
request is answered with HTTP 500 and a JSON body whose `error` field is
the exception's own message; in particular a malformed JSON body and a
missing `LOVABLE_API_KEY` both surface their internal message text. -/
theorem serve_exception_message_exposed :
    (∀ (env : Env) (req : Request) (c : Option CtxKind) (n : Nat) (m : Str),
      req.method ≠ optionsMethod → serveTry env req = (c, n, Except.error m) →
      serve env req = ⟨⟨500, .errorJson m⟩, c, n⟩) ∧
    (∀ (env : Env) (req : Request) (a u m : Str),
      req.method ≠ optionsMethod → req.authHeader = some a →
      env.getUser (replaceFirst bearerPat a) = some u →
      req.jsonBody = Except.error m →
      serve env req = ⟨⟨500, .errorJson m⟩, none, 0⟩) ∧
    (∀ (env : Env) (req : Request) (a u : Str) (b : ReqBody),
      req.method ≠ optionsMethod → req.authHeader = some a →
      env.getUser (replaceFirst bearerPat a) = some u →
      req.jsonBody = Except.ok b → b.action ≠ some getContextAction →
      env.lovableApiKey = none →
      (serve env req).response = ⟨500, .errorJson lovableKeyMsg⟩ ∧
      (serve env req).upstreamCalls = 0 ∧
      (serve env req).assembled.isSome = true) := by
  refine ⟨?_, ?_, ?_⟩
  · intro env req c n m hm h
    simp [serve, hm, h]
  · intro env req a u m hm ha hu hb
    simp [serve, serveTry, hm, ha, hu, hb]
  · intro env req a u b hm ha hu hb hact hk
    simp [serve, serveTry, hm, ha, hu, hb, hact, hk]

/-- Witness for C10 at concrete requests: the malformed-body message and
the missing-key message both appear verbatim in the 500 response. -/
theorem serve_exception_message_exposed_witness :
    serve envAuthed reqBadBody =
      ⟨⟨500, .errorJson "Unexpected end of JSON input".toList⟩, none, 0⟩ ∧
    (serve envNoKey reqPost).response = ⟨500, .errorJson lovableKeyMsg⟩ :=
  ⟨serve_exception_message_exposed.2.1 envAuthed reqBadBody "Bearer tok".toList
      "u1".toList "Unexpected end of JSON input".toList (by decide) rfl rfl rfl,
   (serve_exception_message_exposed.2.2 envNoKey reqPost "Bearer tok".toList
      "u1".toList ⟨[], none, none⟩ (by decide) rfl rfl rfl (by decide) rfl).1⟩

/-!
Claim C8: upstream 429 mapping.
-/

/-- Counterexample for C8 as stated: the 429 response does carry status
429, but its message is the literal
`Rate limit exceeded. Please try again later.`, not the claimed literal
`rate limit exceeded, retry later`. -/
theorem rate_limit_literal_cex :
    (serve env429 reqPost).response = ⟨429, .errorJson rateLimitMsg⟩ ∧
    rateLimitMsg ≠ "rate limit exceeded, retry later".toList := by
  exact ⟨by decide, by decide⟩

/-- C8 (amended): when the upstream endpoint answers 429, the relay
answers a single 429 JSON error with the literal message
`Rate limit exceeded. Please try again later.` and sends exactly one
upstream request (no retry). -/
theorem serve_rate_limited (env : Env) (req : Request) (a u k : Str) (b : ReqBody)
    (hm : req.method ≠ optionsMethod) (ha : req.authHeader = some a)
    (hu : env.getUser (replaceFirst bearerPat a) = some u)
    (hb : req.jsonBody = Except.ok b) (hact : b.action ≠ some getContextAction)
    (hk : env.lovableApiKey = some k) (h429 : env.upstreamStatus = 429) :
    (serve env req).response = ⟨429, .errorJson rateLimitMsg⟩ ∧
    (serve env req).upstreamCalls = 1 := by
  simp [serve, serveTry, hm, ha, hu, hb, hact, hk, h429]

/-- Witness for C8 (amended) at a concrete request. -/
theorem serve_rate_limited_witness :
    (serve env429 reqPost).response = ⟨429, .errorJson rateLimitMsg⟩ ∧
    (serve env429 reqPost).upstreamCalls = 1 :=
  serve_rate_limited env429 reqPost "Bearer tok".toList "u1".toList "k1".toList
    ⟨[], none, none⟩ (by decide) rfl rfl rfl (by decide) rfl rfl

/-!
Claim C4: assignee display-name resolution in `recentTasks`.
-/

/-- Counterexample for C4 as stated: a task whose assignee profile has an
email but no full name resolves to `Unassigned`, not to the email — the
claimed email fallback does not exist. -/
theorem assignee_email_fallback_cex :
    (getProjectContext dbEmailOnly 0).recentTasks =
      some [⟨"t1".toList, "T1".toList, todoStr, "low".toList, none, unassignedStr⟩] ∧
    unassignedStr ≠ "a@b.c".toList := by
  exact ⟨by decide, by decide⟩

/-- C4 (amended): the assignee display name of each recent task is the
assignee's full name when present and non-empty, and `Unassigned`
otherwise; the assignee's email is never consulted. -/
theorem recentTasks_assignee_no_email_fallback :
    (∀ (db : Db) (now : Int) (ts : List TaskRow), db.tasks = some ts →
      ((getProjectContext db now).recentTasks).map (fun l => l.map fun rt => rt.assignee) =
        some ((ts.take 10).map fun t =>
          match t.profiles.bind fun p => p.full_name with
          | some n => if n = [] then unassignedStr else n
          | none => unassignedStr)) ∧
    (∀ (t : TaskRow) (e : Option Str),
      taskAssignee { t with profiles := t.profiles.map fun p => { p with email := e } } =
        taskAssignee t) := by
  constructor
  · intro db now ts h
    simp only [getProjectContext, h, Option.map_some']
    congr 1
    rw [List.map_map]
    apply List.map_congr_left
    intro t _
    simp only [Function.comp, taskAssignee, jsOrStr]
    cases hp : t.profiles.bind fun p => p.full_name with
    | none => rfl
    | some n => cases n <;> simp [List.isEmpty]
  · intro t e
    cases hp : t.profiles <;> simp [taskAssignee, jsOrStr, hp]

/-- Witness for C4 (amended) at a concrete snapshot. -/
theorem recentTasks_assignee_no_email_fallback_witness :
    ((getProjectContext dbEmailOnly 0).recentTasks).map (fun l => l.map fun rt => rt.assignee) =
      some (([taskEmailOnly].take 10).map fun t =>
        match t.profiles.bind fun p => p.full_name with
        | some n => if n = [] then unassignedStr else n
        | none => unassignedStr) :=
  recentTasks_assignee_no_email_fallback.1 dbEmailOnly 0 [taskEmailOnly] rfl

/-!
Claim C5: the overdue count.
-/

/-- The overdue predicate as the spec words it: the due date is non-null
and earlier than now, and the status is not `done`. -/
def overdueSpec (now : Int) (t : TaskRow) : Bool :=
  (t.due_date.any fun d => decide (d < now)) && decide (t.status ≠ doneStr)

/-- C5: the `overdue` field counts exactly the tasks with a non-null due
date earlier than now and a status other than `done`; in particular, of
the two tasks due yesterday, the `todo` one is counted and the `done` one
is not. -/
theorem taskStats_overdue_def :
    (∀ (db : Db) (now : Int) (ts : List TaskRow), db.tasks = some ts →
      (getProjectContext db now).taskStats.overdue = (ts.filter (overdueSpec now)).length) ∧
    (getProjectContext dbYesterday 0).taskStats.overdue = 1 := by
  constructor
  · intro db now ts h
    simp only [getProjectContext, h, Option.map_some', Option.getD_some]
    congr 1
    apply List.filter_congr
    intro t _
    cases hd : t.due_date <;> simp [overdueSpec, hd, decide_not]
  · decide

/-- Witness for C5 at the concrete yesterday-due snapshot. -/
theorem taskStats_overdue_def_witness :
    (getProjectContext dbYesterday 0).taskStats.overdue =
      ([taskDueTodo, taskDueDone].filter (overdueSpec 0)).length :=
  taskStats_overdue_def.1 dbYesterday 0 [taskDueTodo, taskDueDone] rfl

/-!
Claim C6: per-member task counts.
-/

/-- The number of tasks assigned to key `k` (any status).  An empty key
never counts because the workload record is only bumped for truthy
`assigned_to` values. -/
def assignedCount (ts : List TaskRow) (k : Str) : Nat :=
  (ts.filter fun t => decide (t.assigned_to = some k) && !k.isEmpty).length

/-- A non-nil list is not `isEmpty`. -/
theorem isEmpty_eq_false_of_ne {α : Type} {a : List α} (h : a ≠ []) :
    a.isEmpty = false := by
  cases a with
  | nil => exact absurd rfl h
  | cons _ _ => rfl

/-- Bumping a key increments its own lookup. -/
theorem lookupW_bumpKey_self (k : Str) (w : List (Str × Nat)) :
    lookupW (bumpKey k w) k = lookupW w k + 1 := by
  induction w with
  | nil => simp [bumpKey, lookupW]
  | cons e rest ih =>
    obtain ⟨k', n⟩ := e
    by_cases h : k' = k
    · subst h
      simp [bumpKey, lookupW]
    · simp [bumpKey, lookupW, h, ih]

/-- Bumping one key leaves other lookups unchanged. -/
theorem lookupW_bumpKey_other (k k' : Str) (h : k' ≠ k) (w : List (Str × Nat)) :
    lookupW (bumpKey k w) k' = lookupW w k' := by
  induction w with
  | nil => simp [bumpKey, lookupW, Ne.symm h]
  | cons e rest ih =>
    obtain ⟨k'', n⟩ := e
    by_cases h2 : k'' = k
    · subst h2
      simp [bumpKey, lookupW, Ne.symm h, ih]
    · simp [bumpKey, lookupW, h2, ih]

/-- The workload record accumulated over `ts` starting from `acc` looks
up to the accumulator's count plus the number of tasks assigned to the
key. -/
theorem lookupW_buildWorkloadFrom (ts : List TaskRow) (acc : List (Str × Nat)) (k : Str) :
    lookupW (buildWorkloadFrom acc ts) k = lookupW acc k + assignedCount ts k := by
  induction ts generalizing acc with
  | nil => simp [buildWorkloadFrom, assignedCount]
  | cons t rest ih =>
    rw [buildWorkloadFrom]
    cases ha : t.assigned_to with
    | none =>
      rw [ih]
      simp [assignedCount, List.filter, ha]
    | some a =>
      dsimp only
      by_cases he : a = []
      · subst he
        rw [if_pos (show (List.isEmpty ([] : Str)) = true from rfl), ih]
        have hpred : (decide (t.assigned_to = some k) && !k.isEmpty) = false := by
          cases k with
          | nil => simp
          | cons c cs => simp [ha]
        simp [assignedCount, List.filter, hpred]
      · rw [isEmpty_eq_false_of_ne he, if_neg (by simp)]
        by_cases hk : a = k
        · subst hk
          rw [ih, lookupW_bumpKey_self]
          have hpred : (decide (t.assigned_to = some a) && !a.isEmpty) = true := by
            simp [ha, isEmpty_eq_false_of_ne he]
          simp [assignedCount, List.filter, hpred]
          omega
        · rw [ih, lookupW_bumpKey_other a k (fun hh => hk hh.symm)]
          have hpred : (decide (t.assigned_to = some k) && !k.isEmpty) = false := by
            simp [ha, hk]
          simp [assignedCount, List.filter, hpred]

/-- The workload lookup for `k` equals the number of tasks assigned to
`k`. -/
theorem lookupW_buildWorkload (ts : List TaskRow) (k : Str) :
    lookupW (buildWorkload ts) k = assignedCount ts k := by
  have h := lookupW_buildWorkloadFrom ts [] k
  simpa [buildWorkload, lookupW] using h

/-- Counterexample for C6 as stated: member `u1` has one task, already
`done`; the snapshot reports `taskCount = 1` although the member's
open-task count is `0`. -/
theorem teamMember_taskCount_cex :
    (getProjectContext dbOneDone 0).teamMembers =
      some [⟨some "u1".toList, some "Ann".toList, 1⟩] ∧
    ([taskDoneAssigned].filter fun t =>
      decide (t.assigned_to = some "u1".toList) && decide (t.status ≠ doneStr)).length = 0 ∧
    (1 : Nat) ≠ 0 := by
  exact ⟨by decide, by decide, by decide⟩

/-- C6 (amended): each member's `taskCount` is the number of tasks
assigned to that member regardless of status (done tasks included), not
the open-task count. -/
theorem teamMember_taskCount_counts_all (db : Db) (now : Int)
    (ts : List TaskRow) (ms : List MemberRow)
    (ht : db.tasks = some ts) (hm : db.members = some ms) :
    ((getProjectContext db now).teamMembers).map (fun l => l.map fun tm => tm.taskCount) =
      some (ms.map fun m =>
        match m.profiles with
        | some p => assignedCount ts p.id
        | none => 0) := by
  simp only [getProjectContext, ht, hm, Option.map_some', Option.getD_some]
  congr 1
  rw [List.map_map]
  apply List.map_congr_left
  intro m _
  simp only [Function.comp]
  cases m.profiles with
  | none => rfl
  | some p => simp [lookupW_buildWorkload]

/-- Witness for C6 (amended) at the concrete one-done-task snapshot. -/
theorem teamMember_taskCount_counts_all_witness :
    ((getProjectContext dbOneDone 0).teamMembers).map (fun l => l.map fun tm => tm.taskCount) =
      some ([(⟨some ⟨"u1".toList, some "Ann".toList, none⟩⟩ : MemberRow)].map fun m =>
        match m.profiles with
        | some p => assignedCount [taskDoneAssigned] p.id
        | none => 0) :=
  teamMember_taskCount_counts_all dbOneDone 0 [taskDoneAssigned]
    [⟨some ⟨"u1".toList, some "Ann".toList, none⟩⟩] rfl rfl

/-!
Claim C7: failure behaviour of context assembly.
-/

/-- Counterexample for C7 as stated: with the tasks lookup failing
(`data: null`), the relay still calls the upstream endpoint and answers
the 200 event-stream — no JSON error — and the assembled snapshot is
partially degraded: its `project` section is present while `recentTasks`
is missing and every count is zero. -/
theorem context_assembly_degrades_cex :
    serve envTasksErr reqProject =
      ⟨⟨200, .stream⟩, some (.project (getProjectContext dbTasksErr 0)), 1⟩ ∧
    (getProjectContext dbTasksErr 0).recentTasks = none ∧
    (getProjectContext dbTasksErr 0).taskStats.total = 0 ∧
    (getProjectContext dbTasksErr 0).project.isSome = true := by
  exact ⟨by decide, by decide, by decide, by decide⟩

/-- C7 (amended): a failed lookup during context assembly does not fail
the request; the assembler silently degrades the snapshot (missing
`recentTasks`, all-zero counts, empty workload) and the relay proceeds to
the upstream call and streams normally. -/
theorem context_assembly_no_failure :
    (∀ (db : Db) (now : Int), db.tasks = none →
      (getProjectContext db now).recentTasks = none ∧
      (getProjectContext db now).taskStats = ⟨0, 0, 0, 0, 0⟩ ∧
      (getProjectContext db now).workloadDistribution = []) ∧
    (∀ (env : Env) (req : Request) (a u k : Str) (b : ReqBody),
      req.method ≠ optionsMethod → req.authHeader = some a →
      env.getUser (replaceFirst bearerPat a) = some u →
      req.jsonBody = Except.ok b → b.action ≠ some getContextAction →
      env.lovableApiKey = some k →
      200 ≤ env.upstreamStatus → env.upstreamStatus < 300 →
      env.db.tasks = none →
      serve env req =
        ⟨⟨200, .stream⟩,
         some (if jsTruthyStr b.projectId then
                 CtxKind.project (getProjectContext env.db env.now)
               else CtxKind.workspace (getWorkspaceContext env.db)), 1⟩) := by
  constructor
  · intro db now h
    simp [getProjectContext, h, buildWorkload, buildWorkloadFrom]
  · intro env req a u k b hm ha hu hb hact hk hle hlt _htasks
    simp [serve, serveTry, hm, ha, hu, hb, hact, hk, hle, hlt]

/-- Witness for C7 (amended) at the concrete failed-lookup snapshot. -/
theorem context_assembly_no_failure_witness :
    ((getProjectContext dbTasksErr 0).recentTasks = none ∧
      (getProjectContext dbTasksErr 0).taskStats = ⟨0, 0, 0, 0, 0⟩ ∧
      (getProjectContext dbTasksErr 0).workloadDistribution = []) ∧
    serve envTasksErr reqProject =
      ⟨⟨200, .stream⟩,
       some (if jsTruthyStr (some "p1".toList) then
               CtxKind.project (getProjectContext dbTasksErr 0)
             else CtxKind.workspace (getWorkspaceContext dbTasksErr)), 1⟩ :=
  ⟨context_assembly_no_failure.1 dbTasksErr 0 rfl,
   context_assembly_no_failure.2 envTasksErr reqProject "Bearer tok".toList
     "u1".toList "k1".toList ⟨[], some "p1".toList, none⟩ (by decide) rfl rfl rfl
     (by decide) rfl (by decide) (by decide) rfl⟩

/-!
Lemmas about the newline decomposition of buffers, leading to claims
C1 and C2 about the stream decoder.
-/

/-- `segs` never returns the empty list. -/
theorem segs_ne_nil (s : Str) : segs s ≠ [] := by
  cases s with
  | nil => simp [segs]
  | cons c r =>
    by_cases h : c = '\n'
    · simp [segs, h]
    · cases hr : segs r <;> simp [segs, h, hr]

/-- `breakNL` fails exactly on newline-free buffers. -/
theorem breakNL_eq_none_iff (s : Str) : breakNL s = none ↔ '\n' ∉ s := by
  induction s with
  | nil => simp [breakNL]
  | cons c r ih =>
    by_cases h : c = '\n'
    · simp [breakNL, h]
    · cases hr : breakNL r with
      | none => simp [breakNL, h, hr, Ne.symm h, ← ih, hr]
      | some p => simp [breakNL, h, hr, Ne.symm h, ← ih, hr]

/-- A successful `breakNL` decomposes the buffer at its first newline. -/
theorem breakNL_some_decomp {s l r : Str} (h : breakNL s = some (l, r)) :
    s = l ++ '\n' :: r ∧ '\n' ∉ l := by
  induction s generalizing l with
  | nil => simp [breakNL] at h
  | cons c s' ih =>
    by_cases hc : c = '\n'
    · subst hc
      simp [breakNL] at h
      obtain ⟨hl, hr⟩ := h
      subst hl; subst hr
      simp
    · rw [breakNL, if_neg hc] at h
      cases hb : breakNL s' with
      | none => rw [hb] at h; simp at h
      | some p =>
        obtain ⟨l', r'⟩ := p
        rw [hb] at h
        simp at h
        obtain ⟨hl, hr⟩ := h
        subst hr
        obtain ⟨h1, h2⟩ := ih hb
        subst h1
        rw [← hl]
        exact ⟨rfl, by simp [Ne.symm hc, h2]⟩

/-- `breakNL` on a buffer with an explicit first line. -/
theorem breakNL_append_nl {l : Str} (h : '\n' ∉ l) (r : Str) :
    breakNL (l ++ '\n' :: r) = some (l, r) := by
  induction l with
  | nil => simp [breakNL]
  | cons c l' ih =>
    simp at h
    push_neg at h
    obtain ⟨h1, h2⟩ := h
    simp [breakNL, Ne.symm h1, h1, ih h2]

/-- `segs` seen through `breakNL`: the first line and the decomposition
of the rest. -/
theorem segs_view (s : Str) :
    segs s = match breakNL s with
             | none => [s]
             | some (l, r) => l :: segs r := by
  induction s with
  | nil => simp [segs, breakNL]
  | cons c r ih =>
    by_cases h : c = '\n'
    · simp [segs, breakNL, h]
    · cases hb : breakNL r with
      | none =>
        have : segs r = [r] := by rw [ih, hb]
        simp [segs, breakNL, h, hb, this]
      | some p =>
        obtain ⟨l', r'⟩ := p
        have : segs r = l' :: segs r' := by rw [ih, hb]
        simp [segs, breakNL, h, hb, this]

/-- The newline decomposition of a buffer with an explicit first line. -/
theorem segs_append_nl {l : Str} (h : '\n' ∉ l) (r : Str) :
    segs (l ++ '\n' :: r) = l :: segs r := by
  rw [segs_view, breakNL_append_nl h]

/-- A newline-free buffer is a single segment. -/
theorem segs_no_newline {s : Str} (h : '\n' ∉ s) : segs s = [s] := by
  rw [segs_view, (breakNL_eq_none_iff s).mpr h]

/-- Segments are newline-free. -/
theorem mem_segs_no_nl (s : Str) : ∀ t ∈ segs s, '\n' ∉ t := by
  induction s with
  | nil => intro t ht; simp [segs] at ht; simp [ht]
  | cons c r ih =>
    intro t ht
    by_cases h : c = '\n'
    · rw [segs, if_pos h] at ht
      rcases List.mem_cons.mp ht with h1 | h1
      · simp [h1]
      · exact ih t h1
    · rw [segs, if_neg h] at ht
      cases hr : segs r with
      | nil => exact absurd hr (segs_ne_nil r)
      | cons s' ss =>
        rw [hr] at ht
        rcases List.mem_cons.mp ht with h1 | h1
        · subst h1
          have hs' : '\n' ∉ s' := ih s' (by rw [hr]; exact List.mem_cons_self s' ss)
          simp [Ne.symm h, hs']
        · exact ih t (by rw [hr]; exact List.mem_cons_of_mem s' h1)

/-- `unsegs` of a single segment. -/
theorem unsegs_single (s : Str) : unsegs [s] = s := rfl

/-- `unsegs` of at least two segments. -/
theorem unsegs_cons2 (s t : Str) (ts : List Str) :
    unsegs (s :: t :: ts) = s ++ '\n' :: unsegs (t :: ts) := rfl

/-- Rejoining the segments gives back the buffer. -/
theorem unsegs_segs (s : Str) : unsegs (segs s) = s := by
  induction s with
  | nil => simp [segs, unsegs_single]
  | cons c r ih =>
    by_cases h : c = '\n'
    · subst h
      rw [segs, if_pos rfl]
      cases hr : segs r with
      | nil => exact absurd hr (segs_ne_nil r)
      | cons s' ss =>
        rw [unsegs_cons2, ← hr, ih]
        rfl
    · rw [segs, if_neg h]
      cases hr : segs r with
      | nil => exact absurd hr (segs_ne_nil r)
      | cons s' ss =>
        have hu : unsegs (segs r) = r := ih
        rw [hr] at hu
        cases ss with
        | nil =>
          rw [unsegs_single] at hu
          rw [unsegs_single, hu]
        | cons t ts =>
          rw [unsegs_cons2] at hu
          rw [unsegs_cons2, List.cons_append, hu]

/-- Splitting a rejoined list of newline-free segments gives it back. -/
theorem segs_unsegs (A : List Str) (hne : A ≠ []) (hnf : ∀ t ∈ A, '\n' ∉ t) :
    segs (unsegs A) = A := by
  induction A with
  | nil => exact absurd rfl hne
  | cons s A' ih =>
    cases A' with
    | nil => exact segs_no_newline (hnf s (List.mem_cons_self s []))
    | cons t ts =>
      rw [unsegs, segs_append_nl (hnf s (List.mem_cons_self s (t :: ts)))]
      rw [ih (by simp) (fun x hx => hnf x (List.mem_cons_of_mem s hx))]

/-- `unsegs` distributes over append of non-empty segment lists. -/
theorem unsegs_append (A B : List Str) (hA : A ≠ []) (hB : B ≠ []) :
    unsegs (A ++ B) = unsegs A ++ '\n' :: unsegs B := by
  induction A with
  | nil => exact absurd rfl hA
  | cons a A' ih =>
    cases A' with
    | nil =>
      cases B with
      | nil => exact absurd rfl hB
      | cons b B' =>
        rw [List.cons_append, List.nil_append, unsegs_cons2, unsegs_single]
    | cons t ts =>
      rw [show (a :: t :: ts) ++ B = a :: (t :: (ts ++ B)) from rfl, unsegs_cons2]
      rw [show (t :: (ts ++ B) : List Str) = (t :: ts) ++ B from rfl]
      rw [ih (by simp), unsegs_cons2]
      simp

/-- The default of `getLastD` is irrelevant on non-empty lists. -/
theorem getLastD_irrel {α : Type} (l : List α) (h : l ≠ []) (d d' : α) :
    l.getLastD d = l.getLastD d' := by
  rw [List.getLastD_eq_getLast?, List.getLastD_eq_getLast?]
  cases hg : l.getLast? with
  | none => exact absurd (List.getLast?_eq_none_iff.mp hg) h
  | some a => rfl

/-- Auxiliary form of `segs_append` with an explicit length bound. -/
theorem segs_append_aux (n : Nat) : ∀ (X Y : Str), X.length ≤ n →
    segs (X ++ Y) = (segs X).dropLast ++ segs ((segs X).getLastD [] ++ Y) := by
  induction n with
  | zero =>
    intro X Y hlen
    have hX : X = [] := List.length_eq_zero.mp (Nat.le_zero.mp hlen)
    subst hX
    simp [segs]
  | succ n ih =>
    intro X Y hlen
    cases hb : breakNL X with
    | none =>
      have hX : segs X = [X] := by rw [segs_view, hb]
      simp [hX]
    | some p =>
      obtain ⟨l, r⟩ := p
      obtain ⟨hdec, hnl⟩ := breakNL_some_decomp hb
      subst hdec
      have hlen' : r.length ≤ n := by
        simp at hlen
        omega
      rw [show (l ++ '\n' :: r) ++ Y = l ++ '\n' :: (r ++ Y) by simp]
      rw [segs_append_nl hnl, segs_append_nl hnl]
      have hne := segs_ne_nil r
      rw [List.dropLast_cons_of_ne_nil hne, List.getLastD_cons,
        getLastD_irrel (segs r) hne l [], ih r Y hlen']
      simp

/-- Splitting a concatenation: the complete lines of `X` followed by the
split of its trailing partial line merged with `Y`. -/
theorem segs_append (X Y : Str) :
    segs (X ++ Y) = (segs X).dropLast ++ segs ((segs X).getLastD [] ++ Y) :=
  segs_append_aux X.length X Y (le_refl _)

/-- Rejoining the complete lines of a non-empty segment list with its
last segment merged into `Y`. -/
theorem unsegs_dropLast_merge (A : List Str) (Y : Str) (hne : A ≠ [])
    (hnf : ∀ t ∈ A, '\n' ∉ t) :
    unsegs (A.dropLast ++ segs (A.getLastD [] ++ Y)) = unsegs A ++ Y := by
  obtain ⟨D, z, hDz⟩ := A.eq_nil_or_concat.resolve_left hne
  rw [List.concat_eq_append] at hDz
  subst hDz
  rw [List.dropLast_concat]
  have hz : (D ++ [z]).getLastD [] = z := by
    rw [List.getLastD_eq_getLast?, List.getLast?_concat]
    rfl
  rw [hz]
  cases D with
  | nil =>
    rw [List.nil_append, List.nil_append, unsegs_segs, unsegs_single]
  | cons d D' =>
    rw [unsegs_append (d :: D') (segs (z ++ Y)) (by simp) (segs_ne_nil _)]
    rw [unsegs_append (d :: D') [z] (by simp) (by simp)]
    rw [unsegs_segs, unsegs_single]
    simp

/-!
The loop strips one trailing carriage return from the line it examines
and, on a parse exception, pushes the stripped line back into the
buffer.  The processing of a line therefore has to be invariant under
removal of trailing carriage returns; the next block of lemmas proves
this.
-/

/-- Remove all trailing carriage returns of a line. -/
def rtrimCRs (s : Str) : Str := (s.reverse.dropWhile fun c => c = '\r').reverse

/-- Dropping one trailing `\r` does not change the CR-normal form. -/
theorem rtrimCRs_append_cr (x : Str) : rtrimCRs (x ++ ['\r']) = rtrimCRs x := by
  simp [rtrimCRs, List.dropWhile]

/-- Every line is its CR-normal form plus some trailing `\r`s. -/
theorem rtrimCRs_decomp (s : Str) : ∃ k, s = rtrimCRs s ++ List.replicate k '\r' := by
  refine ⟨(s.reverse.takeWhile fun c => c = '\r').length, ?_⟩
  have h1 : (s.reverse.takeWhile fun c => c = '\r').reverse =
      List.replicate (s.reverse.takeWhile fun c => c = '\r').length '\r' := by
    rw [List.eq_replicate_iff]
    refine ⟨by simp, ?_⟩
    intro b hb
    rw [List.mem_reverse] at hb
    have := List.mem_takeWhile_imp hb
    simpa using this
  have h2 : s = rtrimCRs s ++ (s.reverse.takeWhile fun c => c = '\r').reverse := by
    rw [rtrimCRs, ← List.reverse_append, List.takeWhile_append_dropWhile,
      List.reverse_reverse]
  rw [← h1, ← h2]

/-- The CR-normal form of the CR-stripped line. -/
theorem rtrimCRs_stripCR (s : Str) : rtrimCRs (stripCR s) = rtrimCRs s := by
  rw [stripCR]
  by_cases h : s.getLast? = some '\r'
  · rw [if_pos h]
    conv_rhs => rw [← List.dropLast_append_getLast? '\r' h]
    rw [rtrimCRs_append_cr]
  · rw [if_neg h]

/-- Trailing whitespace does not change `trimC`. -/
theorem trimC_append_ws {c : Char} (hc : ws c = true) (x : Str) :
    trimC (x ++ [c]) = trimC x := by
  simp [trimC, rtrim, List.dropWhile, hc]

/-- The data-prefix test is invariant under one trailing `\r`. -/
theorem take6_append_cr (x : Str) :
    ((x ++ ['\r']).take 6 = dataTag) ↔ (x.take 6 = dataTag) := by
  by_cases h : 6 ≤ x.length
  · rw [List.take_append_of_le_length h]
  · push_neg at h
    constructor
    · intro hx
      exfalso
      have hlen : (x ++ ['\r']).length ≤ 6 := by simp; omega
      rw [List.take_of_length_le hlen] at hx
      have := congrArg List.getLast? hx
      rw [List.getLast?_concat] at this
      simp [dataTag] at this
    · intro hx
      exfalso
      have hlen : x.length ≤ 6 := by omega
      rw [List.take_of_length_le hlen] at hx
      have := congrArg List.length hx
      simp [dataTag] at this
      omega

/-- The head test together with the blank test is invariant under one
trailing `\r`. -/
theorem skipGuard_append_cr (x : Str) :
    ((x ++ ['\r']).head? = some ':' ∨ trimC (x ++ ['\r']) = []) ↔
      (x.head? = some ':' ∨ trimC x = []) := by
  rw [trimC_append_ws (by decide) x]
  cases x with
  | nil =>
    simp [trimC, ltrim, rtrim, List.dropWhile]
  | cons c r => simp

/-- One iteration of the guards is invariant under one trailing `\r`. -/
theorem lineStepRaw_append_cr (parse : Parse) (x : Str) :
    lineStepRaw parse (x ++ ['\r']) = lineStepRaw parse x := by
  rw [lineStepRaw, lineStepRaw]
  by_cases h1 : x.head? = some ':' ∨ trimC x = []
  · rw [if_pos h1, if_pos ((skipGuard_append_cr x).mpr h1)]
  · rw [if_neg h1, if_neg (fun hh => h1 ((skipGuard_append_cr x).mp hh))]
    by_cases h2 : x.take 6 = dataTag
    · have h2' : (x ++ ['\r']).take 6 = dataTag := (take6_append_cr x).mpr h2
      rw [if_neg (not_not_intro h2'), if_neg (not_not_intro h2)]
      have hlen : 6 ≤ x.length := by
        by_contra hc
        push_neg at hc
        rw [List.take_of_length_le (by omega)] at h2
        have := congrArg List.length h2
        simp [dataTag] at this
        omega
      have hdrop : (x ++ ['\r']).drop 6 = x.drop 6 ++ ['\r'] :=
        List.drop_append_of_le_length hlen
      rw [hdrop, trimC_append_ws (by decide)]
    · have h2' : ¬ (x ++ ['\r']).take 6 = dataTag :=
        fun hh => h2 ((take6_append_cr x).mp hh)
      rw [if_pos h2', if_pos h2]

/-- The guards only see the CR-normal form of the line. -/
theorem lineStepRaw_rtrimCRs (parse : Parse) (s : Str) :
    lineStepRaw parse s = lineStepRaw parse (rtrimCRs s) := by
  obtain ⟨k, hk⟩ := rtrimCRs_decomp s
  conv_lhs => rw [hk]
  generalize rtrimCRs s = core
  clear hk
  induction k with
  | zero => simp
  | succ n ih =>
    rw [List.replicate_succ', ← List.append_assoc, lineStepRaw_append_cr]
    exact ih

/-- Two lines with the same CR-normal form are processed identically. -/
theorem lineStep_key {a b : Str} (parse : Parse) (h : rtrimCRs a = rtrimCRs b) :
    lineStep parse a = lineStep parse b := by
  rw [lineStep, lineStep, lineStepRaw_rtrimCRs, rtrimCRs_stripCR, h,
    ← rtrimCRs_stripCR, ← lineStepRaw_rtrimCRs]

/-- Whether a line is the `data: [DONE]` sentinel, i.e. whether the loop
stops there; this does not depend on the JSON parser. -/
def isStopLine (raw : Str) : Bool :=
  let l := stripCR raw
  !(decide (l.head? = some ':' ∨ trimC l = [])) && decide (l.take 6 = dataTag)
    && decide (trimC (l.drop 6) = doneChars)

/-- The loop stops at a line exactly when it is a sentinel line. -/
theorem lineStep_eq_stop_iff (parse : Parse) (raw : Str) :
    lineStep parse raw = .stop ↔ isStopLine raw = true := by
  rw [lineStep, lineStepRaw, isStopLine]
  by_cases h1 : (stripCR raw).head? = some ':' ∨ trimC (stripCR raw) = []
  · rw [if_pos h1]
    simp [h1]
  · rw [if_neg h1]
    by_cases h2 : (stripCR raw).take 6 = dataTag
    · rw [if_neg (not_not_intro h2)]
      by_cases h3 : trimC ((stripCR raw).drop 6) = doneChars
      · rw [if_pos h3]
        simp [h1, h2, h3]
      · rw [if_neg h3]
        cases hp : parse (trimC ((stripCR raw).drop 6)) with
        | none => simp [h1, h2, h3]
        | some o =>
          cases o with
          | none => simp [h1, h2, h3]
          | some c =>
            by_cases hc : c = [] <;> simp [hc, h1, h2, h3]
    · rw [if_pos h2]
      simp [h1, h2]

/-- Sentinel recognition is also invariant under the CR-normal form. -/
theorem isStopLine_key {a b : Str} (h : rtrimCRs a = rtrimCRs b) :
    isStopLine a = isStopLine b := by
  have hl := lineStep_key (a := a) (b := b) (fun _ => none) h
  have ha := lineStep_eq_stop_iff (fun _ => none) a
  have hb := lineStep_eq_stop_iff (fun _ => none) b
  rw [hl] at ha
  exact Bool.eq_iff_iff.mpr (ha.symm.trans hb)

/-- Sentinel recognition ignores the stripped `\r`. -/
theorem isStopLine_stripCR (l : Str) : isStopLine (stripCR l) = isStopLine l :=
  isStopLine_key (rtrimCRs_stripCR l)

/-!
Buffers that differ only in trailing carriage returns of their first
line are indistinguishable to the decoder.  `bufEq` captures that
relation.
-/

/-- The (newline-free) first segment of a buffer. -/
def firstSeg (s : Str) : Str := s.takeWhile fun c => decide (c ≠ '\n')

/-- The rest of a buffer from its first newline on. -/
def restAfter (s : Str) : Str := s.dropWhile fun c => decide (c ≠ '\n')

/-- Equality of buffers up to trailing carriage returns on the first
line. -/
def bufEq (a b : Str) : Prop :=
  rtrimCRs (firstSeg a) = rtrimCRs (firstSeg b) ∧ restAfter a = restAfter b

/-- `bufEq` is reflexive. -/
theorem bufEq_refl (a : Str) : bufEq a a := ⟨rfl, rfl⟩

/-- `bufEq` is symmetric. -/
theorem bufEq_symm {a b : Str} (h : bufEq a b) : bufEq b a := ⟨h.1.symm, h.2.symm⟩

/-- `bufEq` is transitive. -/
theorem bufEq_trans {a b c : Str} (h1 : bufEq a b) (h2 : bufEq b c) : bufEq a c :=
  ⟨h1.1.trans h2.1, h1.2.trans h2.2⟩

/-- `firstSeg` on a cons cell. -/
theorem firstSeg_cons (c : Char) (r : Str) :
    firstSeg (c :: r) = if c = '\n' then [] else c :: firstSeg r := by
  rw [firstSeg, firstSeg, List.takeWhile]
  by_cases h : c = '\n' <;> simp [h]

/-- `restAfter` on a cons cell. -/
theorem restAfter_cons (c : Char) (r : Str) :
    restAfter (c :: r) = if c = '\n' then c :: r else restAfter r := by
  rw [restAfter, restAfter, List.dropWhile]
  by_cases h : c = '\n' <;> simp [h]

/-- First segment and rest of a buffer with an explicit first line. -/
theorem firstSeg_restAfter_append {l : Str} (h : '\n' ∉ l) (t : Str) :
    firstSeg (l ++ '\n' :: t) = l ∧ restAfter (l ++ '\n' :: t) = '\n' :: t := by
  induction l with
  | nil => constructor <;> simp [firstSeg_cons, restAfter_cons]
  | cons c l' ih =>
    simp at h
    push_neg at h
    obtain ⟨h1, h2⟩ := h
    obtain ⟨ih1, ih2⟩ := ih h2
    constructor
    · rw [List.cons_append, firstSeg_cons, if_neg (Ne.symm h1), ih1]
    · rw [List.cons_append, restAfter_cons, if_neg (Ne.symm h1), ih2]

/-- First segment and rest of a newline-free buffer. -/
theorem firstSeg_restAfter_no_nl {l : Str} (h : '\n' ∉ l) :
    firstSeg l = l ∧ restAfter l = [] := by
  induction l with
  | nil => constructor <;> simp [firstSeg, restAfter]
  | cons c l' ih =>
    simp at h
    push_neg at h
    obtain ⟨h1, h2⟩ := h
    obtain ⟨ih1, ih2⟩ := ih h2
    constructor
    · rw [firstSeg_cons, if_neg (Ne.symm h1), ih1]
    · rw [restAfter_cons, if_neg (Ne.symm h1), ih2]

/-- `bufEq` between buffers with explicit first lines of the same
CR-normal form. -/
theorem bufEq_cons_of_key {l l' : Str} (h : '\n' ∉ l) (h' : '\n' ∉ l')
    (hk : rtrimCRs l = rtrimCRs l') (t : Str) :
    bufEq (l ++ '\n' :: t) (l' ++ '\n' :: t) := by
  obtain ⟨h1, h2⟩ := firstSeg_restAfter_append h t
  obtain ⟨h1', h2'⟩ := firstSeg_restAfter_append h' t
  exact ⟨by rw [h1, h1', hk], by rw [h2, h2']⟩

/-- Splitting a buffer at its first newline and rejoining is the
identity. -/
theorem first_rest (s : Str) : firstSeg s ++ restAfter s = s :=
  List.takeWhile_append_dropWhile (fun c => decide (c ≠ '\n')) s

/-- The first segment of a buffer is newline-free. -/
theorem not_nl_firstSeg (s : Str) : '\n' ∉ firstSeg s := fun hm => by
  simpa using List.mem_takeWhile_imp hm

/-- The rest of a buffer is empty or starts at the first newline. -/
theorem restAfter_head (s : Str) : restAfter s = [] ∨ ∃ r, restAfter s = '\n' :: r := by
  induction s with
  | nil => left; rfl
  | cons c r ih =>
    by_cases h : c = '\n'
    · subst h
      right
      exact ⟨r, by rw [restAfter_cons, if_pos rfl]⟩
    · rw [restAfter_cons, if_neg h]
      exact ih

/-- The newline decomposition of a buffer in terms of its first segment
and rest. -/
theorem segs_first_rest (s : Str) :
    (restAfter s = [] ∧ segs s = [firstSeg s]) ∨
    (∃ r, restAfter s = '\n' :: r ∧ segs s = firstSeg s :: segs r) := by
  have hs := first_rest s
  rcases restAfter_head s with h0 | ⟨r, h0⟩
  · left
    refine ⟨h0, ?_⟩
    rw [h0, List.append_nil] at hs
    conv_lhs => rw [← hs]
    exact segs_no_newline (not_nl_firstSeg s)
  · right
    refine ⟨r, h0, ?_⟩
    rw [h0] at hs
    conv_lhs => rw [← hs]
    exact segs_append_nl (not_nl_firstSeg s) r

/-- A buffer trims to nothing exactly when it is all whitespace. -/
theorem trimC_eq_nil_iff (s : Str) : trimC s = [] ↔ ∀ c ∈ s, ws c = true := by
  rw [trimC, ltrim, List.dropWhile_eq_nil_iff]
  constructor
  · intro h c hc
    rw [← List.mem_reverse] at hc
    rw [← List.takeWhile_append_dropWhile (p := ws) (l := s.reverse)] at hc
    rcases List.mem_append.mp hc with h1 | h1
    · exact List.mem_takeWhile_imp h1
    · exact h c (by rw [rtrim, List.mem_reverse]; exact h1)
  · intro h x hx
    rw [rtrim, List.mem_reverse] at hx
    exact h x (List.mem_reverse.mp ((List.dropWhile_sublist _).subset hx))

/-- All-whitespace is invariant under removal of trailing carriage
returns. -/
theorem allWs_rtrimCRs (s : Str) :
    (∀ c ∈ s, ws c = true) ↔ (∀ c ∈ rtrimCRs s, ws c = true) := by
  obtain ⟨k, hk⟩ := rtrimCRs_decomp s
  constructor
  · intro h c hc
    exact h c (by rw [hk]; exact List.mem_append_left _ hc)
  · intro h c hc
    rw [hk] at hc
    rcases List.mem_append.mp hc with h1 | h1
    · exact h c h1
    · rw [List.eq_of_mem_replicate h1]
      decide

/-- All-whitespace transfers along equal CR-normal forms. -/
theorem allWs_key {f g : Str} (hk : rtrimCRs f = rtrimCRs g) :
    (∀ c ∈ f, ws c = true) ↔ (∀ c ∈ g, ws c = true) := by
  rw [allWs_rtrimCRs f, hk, ← allWs_rtrimCRs g]

/-- The flush handles two lines with the same CR-normal form
identically. -/
theorem flushLine_key (parse : Parse) {a b : Str} (hk : rtrimCRs a = rtrimCRs b) :
    flushLine parse a = flushLine parse b := by
  have hL := lineStep_key parse hk
  by_cases ha : a = []
  · subst ha
    by_cases hb : b = []
    · subst hb; rfl
    · have hsb : lineStep parse b = .skip := by rw [← hL]; rfl
      show none = flushLine parse b
      rw [flushLine, if_neg hb, hsb]
  · by_cases hb : b = []
    · subst hb
      have hsa : lineStep parse a = .skip := by rw [hL]; rfl
      show flushLine parse a = none
      rw [flushLine, if_neg ha, hsa]
    · rw [flushLine, flushLine, if_neg ha, if_neg hb, hL]

/-- Unfolding of the loop on a buffer with at least one complete line. -/
theorem processSegs_cons2 (parse : Parse) (line s : Str) (ss : List Str) :
    processSegs parse (line :: s :: ss) =
      match lineStep parse line with
      | .skip => processSegs parse (s :: ss)
      | .stop => ([], unsegs (s :: ss), true)
      | .stick => ([], stripCR line ++ '\n' :: unsegs (s :: ss), false)
      | .emit c =>
        let (e, b, d) := processSegs parse (s :: ss)
        (c :: e, b, d) := rfl

/-- Stripping the `\r` keeps a line newline-free. -/
theorem not_nl_stripCR {l : Str} (h : '\n' ∉ l) : '\n' ∉ stripCR l := by
  rw [stripCR]
  by_cases hc : l.getLast? = some '\r'
  · rw [if_pos hc]
    exact fun hm => h (List.dropLast_sublist l |>.subset hm)
  · rw [if_neg hc]
    exact h

/-- Without a sentinel among the complete lines, the loop never sets the
done flag. -/
theorem processSegs_flag_false (parse : Parse) : ∀ (L : List Str),
    (∀ l ∈ L.dropLast, isStopLine l = false) →
    (processSegs parse L).2.2 = false := by
  intro L
  induction L with
  | nil => intro _; rfl
  | cons line rest ih =>
    intro h
    cases rest with
    | nil => rfl
    | cons s ss =>
      have hline : isStopLine line = false := by
        apply h
        rw [List.dropLast_cons_of_ne_nil (by simp)]
        exact List.mem_cons_self _ _
      have htail : ∀ l ∈ (s :: ss).dropLast, isStopLine l = false := by
        intro l hl
        apply h
        rw [List.dropLast_cons_of_ne_nil (by simp)]
        exact List.mem_cons_of_mem _ hl
      rw [processSegs_cons2]
      cases hls : lineStep parse line with
      | stop =>
        have := (lineStep_eq_stop_iff parse line).mp hls
        rw [hline] at this
        cases this
      | skip => exact ih htail
      | stick => rfl
      | emit c =>
        have hflag := ih htail
        rcases hps : processSegs parse (s :: ss) with ⟨e, b, d⟩
        rw [hps] at hflag
        exact hflag

/-- Processing `X ++ Y` agrees with first processing `X`, then processing
its residue extended with `Y`: same emissions, same (absent) done flag,
and final buffers equal up to trailing carriage returns of their first
line.  `A` stands for the newline decomposition of `X`. -/
theorem processSegs_split (parse : Parse) : ∀ (A : List Str) (Y : Str),
    A ≠ [] → (∀ t ∈ A, '\n' ∉ t) →
    (∀ l ∈ A.dropLast ++ segs (A.getLastD [] ++ Y), isStopLine l = false) →
    ∃ e₁ b₁ e₂ b₂ bL,
      processSegs parse (A.dropLast ++ segs (A.getLastD [] ++ Y)) = (e₁ ++ e₂, bL, false) ∧
      processSegs parse A = (e₁, b₁, false) ∧
      processSegs parse (segs (b₁ ++ Y)) = (e₂, b₂, false) ∧
      bufEq bL b₂ := by
  intro A
  induction A with
  | nil => intro Y h; exact absurd rfl h
  | cons line A' ih =>
    intro Y _ hnf hns
    cases A' with
    | nil =>
      rcases hps : processSegs parse (segs (line ++ Y)) with ⟨e₂, b₂, d⟩
      have hd : d = false := by
        have hh := processSegs_flag_false parse (segs (line ++ Y)) (by
          intro l hl
          exact hns l (List.dropLast_sublist _ |>.subset hl))
        rw [hps] at hh
        exact hh
      subst hd
      exact ⟨[], line, e₂, b₂, b₂, by simpa using hps, rfl, by simpa using hps,
        bufEq_refl b₂⟩
    | cons a A'' =>
      have hlist : (line :: a :: A'').dropLast ++
            segs ((line :: a :: A'').getLastD [] ++ Y) =
          line :: ((a :: A'').dropLast ++ segs ((a :: A'').getLastD [] ++ Y)) := by
        rw [List.dropLast_cons_of_ne_nil (by simp), List.getLastD_cons,
          getLastD_irrel (a :: A'') (by simp) line []]
        simp
      rw [hlist]
      rw [hlist] at hns
      have hnfT : ∀ t ∈ a :: A'', '\n' ∉ t :=
        fun t ht => hnf t (List.mem_cons_of_mem _ ht)
      have hTne : (a :: A'').dropLast ++ segs ((a :: A'').getLastD [] ++ Y) ≠ [] := by
        intro hT
        exact segs_ne_nil _ (List.append_eq_nil.mp hT).2
      obtain ⟨t0, T0, hT⟩ := List.exists_cons_of_ne_nil hTne
      have hnsT : ∀ l ∈ (a :: A'').dropLast ++ segs ((a :: A'').getLastD [] ++ Y),
          isStopLine l = false := fun l hl => hns l (List.mem_cons_of_mem _ hl)
      have hlineStop : isStopLine line = false := hns line (List.mem_cons_self _ _)
      cases hls : lineStep parse line with
      | stop =>
        have := (lineStep_eq_stop_iff parse line).mp hls
        rw [hlineStop] at this
        cases this
      | skip =>
        obtain ⟨e₁, b₁, e₂, b₂, bL, H1, H2, H3, H4⟩ :=
          ih Y (by simp) hnfT hnsT
        refine ⟨e₁, b₁, e₂, b₂, bL, ?_, ?_, H3, H4⟩
        · rw [hT, processSegs_cons2, hls, ← hT]
          exact H1
        · rw [processSegs_cons2, hls]
          exact H2
      | emit c =>
        obtain ⟨e₁, b₁, e₂, b₂, bL, H1, H2, H3, H4⟩ :=
          ih Y (by simp) hnfT hnsT
        refine ⟨c :: e₁, b₁, e₂, b₂, bL, ?_, ?_, H3, H4⟩
        · rw [hT, processSegs_cons2, hls, ← hT, H1]
          rfl
        · rw [processSegs_cons2, hls, H2]
      | stick =>
        have hnlL : '\n' ∉ line := hnf line (List.mem_cons_self _ _)
        have hUT : unsegs ((a :: A'').dropLast ++ segs ((a :: A'').getLastD [] ++ Y)) =
            unsegs (a :: A'') ++ Y :=
          unsegs_dropLast_merge (a :: A'') Y (by simp) hnfT
        have hb1Y : (stripCR line ++ '\n' :: unsegs (a :: A'')) ++ Y =
            stripCR line ++ '\n' :: (unsegs (a :: A'') ++ Y) := by simp
        have hsegs : segs (stripCR line ++ '\n' :: (unsegs (a :: A'') ++ Y)) =
            stripCR line :: segs (unsegs (a :: A'') ++ Y) :=
          segs_append_nl (not_nl_stripCR hnlL) _
        have hsegsne := segs_ne_nil (unsegs (a :: A'') ++ Y)
        obtain ⟨u0, U0, hU⟩ := List.exists_cons_of_ne_nil hsegsne
        have hls' : lineStep parse (stripCR line) = .stick := by
          rw [lineStep_key parse (rtrimCRs_stripCR line)]
          exact hls
        refine ⟨[], stripCR line ++ '\n' :: unsegs (a :: A''), [],
          stripCR (stripCR line) ++ '\n' :: (unsegs (a :: A'') ++ Y),
          stripCR line ++ '\n' :: (unsegs (a :: A'') ++ Y), ?_, ?_, ?_, ?_⟩
        · rw [hT, processSegs_cons2, hls, ← hT, hUT]
          rfl
        · rw [processSegs_cons2, hls]
        · rw [hb1Y, hsegs, hU, processSegs_cons2, hls', ← hU,
            unsegs_segs]
        · exact bufEq_cons_of_key (not_nl_stripCR hnlL)
            (not_nl_stripCR (not_nl_stripCR hnlL))
            (rtrimCRs_stripCR (stripCR line)).symm _

/-- Unfolding the head of the three-segment list rewriting used by the
split lemma. -/
theorem dropLast_getLastD_cons2 (line a : Str) (A'' : List Str) (Y : Str) :
    (line :: a :: A'').dropLast ++ segs ((line :: a :: A'').getLastD [] ++ Y) =
      line :: ((a :: A'').dropLast ++ segs ((a :: A'').getLastD [] ++ Y)) := by
  rw [List.dropLast_cons_of_ne_nil (by simp), List.getLastD_cons,
    getLastD_irrel (a :: A'') (by simp) line []]
  simp

/-- Processing never creates a sentinel line: the residue extended with
any continuation still has no sentinel. -/
theorem processSegs_preserves_noStop (parse : Parse) : ∀ (A : List Str) (Z : Str),
    A ≠ [] → (∀ t ∈ A, '\n' ∉ t) →
    (∀ l ∈ A.dropLast ++ segs (A.getLastD [] ++ Z), isStopLine l = false) →
    ∀ {E : List Str} {b : Str} {d : Bool}, processSegs parse A = (E, b, d) →
    ∀ l ∈ segs (b ++ Z), isStopLine l = false := by
  intro A
  induction A with
  | nil => intro Z h; exact absurd rfl h
  | cons line A' ih =>
    intro Z _ hnf hns E b d hp
    cases A' with
    | nil =>
      have hb : processSegs parse [line] = ([], line, false) := rfl
      rw [hb] at hp
      have hbl : b = line := by
        have := congrArg (fun p => p.2.1) hp
        simpa using this.symm
      subst hbl
      intro l hl
      exact hns l (by simpa using hl)
    | cons a A'' =>
      rw [dropLast_getLastD_cons2] at hns
      have hnfT : ∀ t ∈ a :: A'', '\n' ∉ t :=
        fun t ht => hnf t (List.mem_cons_of_mem _ ht)
      have hnsT : ∀ l ∈ (a :: A'').dropLast ++ segs ((a :: A'').getLastD [] ++ Z),
          isStopLine l = false := fun l hl => hns l (List.mem_cons_of_mem _ hl)
      have hlineStop : isStopLine line = false := hns line (List.mem_cons_self _ _)
      cases hls : lineStep parse line with
      | stop =>
        have := (lineStep_eq_stop_iff parse line).mp hls
        rw [hlineStop] at this
        cases this
      | skip =>
        rw [processSegs_cons2, hls] at hp
        exact ih Z (by simp) hnfT hnsT hp
      | emit c =>
        rw [processSegs_cons2, hls] at hp
        rcases hps : processSegs parse (a :: A'') with ⟨e, b', d'⟩
        rw [hps] at hp
        have hbb : b = b' := by
          have := congrArg (fun p => p.2.1) hp
          simpa using this.symm
        subst hbb
        exact ih Z (by simp) hnfT hnsT hps
      | stick =>
        rw [processSegs_cons2, hls] at hp
        have hbb : b = stripCR line ++ '\n' :: unsegs (a :: A'') := by
          have := congrArg (fun p => p.2.1) hp
          simpa using this.symm
        subst hbb
        have hnlL : '\n' ∉ line := hnf line (List.mem_cons_self _ _)
        intro l hl
        rw [show (stripCR line ++ '\n' :: unsegs (a :: A'')) ++ Z =
            stripCR line ++ '\n' :: (unsegs (a :: A'') ++ Z) by simp] at hl
        rw [segs_append_nl (not_nl_stripCR hnlL)] at hl
        rcases List.mem_cons.mp hl with h1 | h1
        · subst h1
          rw [isStopLine_stripCR]
          exact hlineStop
        · have hsg : segs (unsegs (a :: A'') ++ Z) =
              (a :: A'').dropLast ++ segs ((a :: A'').getLastD [] ++ Z) := by
            rw [segs_append (unsegs (a :: A'')) Z,
              segs_unsegs (a :: A'') (by simp) hnfT]
          rw [hsg] at h1
          exact hnsT l h1

/-- Residue of the loop: reprocessing a residual buffer emits nothing
and only normalises carriage returns of its first line. -/
theorem processSegs_residue (parse : Parse) : ∀ (A : List Str),
    A ≠ [] → (∀ t ∈ A, '\n' ∉ t) →
    ∀ {E : List Str} {b : Str}, processSegs parse A = (E, b, false) →
    ∃ b₂, processLines parse b = ([], b₂, false) ∧ bufEq b b₂ := by
  intro A
  induction A with
  | nil => intro h; exact absurd rfl h
  | cons line A' ih =>
    intro _ hnf E b hp
    cases A' with
    | nil =>
      have hb : processSegs parse [line] = ([], line, false) := rfl
      rw [hb] at hp
      have hbl : b = line := by
        have := congrArg (fun p => p.2.1) hp
        simpa using this.symm
      subst hbl
      refine ⟨b, ?_, bufEq_refl b⟩
      rw [processLines, segs_no_newline (hnf b (List.mem_cons_self _ _))]
      rfl
    | cons a A'' =>
      have hnfT : ∀ t ∈ a :: A'', '\n' ∉ t :=
        fun t ht => hnf t (List.mem_cons_of_mem _ ht)
      have hnlL : '\n' ∉ line := hnf line (List.mem_cons_self _ _)
      cases hls : lineStep parse line with
      | skip =>
        rw [processSegs_cons2, hls] at hp
        exact ih (by simp) hnfT hp
      | stop =>
        rw [processSegs_cons2, hls] at hp
        have := congrArg (fun p => p.2.2) hp
        simp at this
      | emit c =>
        rw [processSegs_cons2, hls] at hp
        rcases hps : processSegs parse (a :: A'') with ⟨e, b', d'⟩
        rw [hps] at hp
        have hbb : b = b' := by
          have := congrArg (fun p => p.2.1) hp
          simpa using this.symm
        have hdd : d' = false := by
          have := congrArg (fun p => p.2.2) hp
          simpa using this
        subst hbb
        rw [hdd] at hps
        exact ih (by simp) hnfT hps
      | stick =>
        rw [processSegs_cons2, hls] at hp
        have hbb : b = stripCR line ++ '\n' :: unsegs (a :: A'') := by
          have := congrArg (fun p => p.2.1) hp
          simpa using this.symm
        subst hbb
        have hls' : lineStep parse (stripCR line) = .stick := by
          rw [lineStep_key parse (rtrimCRs_stripCR line)]
          exact hls
        refine ⟨stripCR (stripCR line) ++ '\n' :: unsegs (a :: A''), ?_, ?_⟩
        · rw [processLines, segs_append_nl (not_nl_stripCR hnlL),
            segs_unsegs (a :: A'') (by simp) hnfT, processSegs_cons2, hls']
        · exact bufEq_cons_of_key (not_nl_stripCR hnlL)
            (not_nl_stripCR (not_nl_stripCR hnlL))
            (rtrimCRs_stripCR (stripCR line)).symm _

/-- Unfolding of the read loop on one chunk. -/
theorem feedChunks_cons (parse : Parse) (c : Str) (cs : List Str) (buf : Str) :
    feedChunks parse (c :: cs) buf false =
      (let (e, b, d') := processLines parse (buf ++ c)
       let (e', b', d'') := feedChunks parse cs b d'
       (e ++ e', b', d'')) := rfl

/-- Feeding the chunks one by one agrees with processing the whole
concatenation at once, provided no chunk line is the sentinel: the same
deltas are emitted and the final buffers agree up to trailing carriage
returns of their first line. -/
theorem feedChunks_bridge (parse : Parse) : ∀ (cs : List Str) (B : Str),
    (∃ b₂, processLines parse B = ([], b₂, false) ∧ bufEq B b₂) →
    (∀ l ∈ segs (B ++ cs.flatten), isStopLine l = false) →
    ∃ E Bf BL, feedChunks parse cs B false = (E, Bf, false) ∧
      processLines parse (B ++ cs.flatten) = (E, BL, false) ∧ bufEq Bf BL := by
  intro cs
  induction cs with
  | nil =>
    intro B hres _
    obtain ⟨b₂, hp, hb⟩ := hres
    exact ⟨[], B, b₂, rfl, by simpa using hp, hb⟩
  | cons c cs ih =>
    intro B hres hns
    have hAne := segs_ne_nil (B ++ c)
    have hAnf := mem_segs_no_nl (B ++ c)
    have hseg : (segs (B ++ c)).dropLast ++
          segs ((segs (B ++ c)).getLastD [] ++ cs.flatten) =
        segs ((B ++ c) ++ cs.flatten) := (segs_append (B ++ c) cs.flatten).symm
    have hns' : ∀ l ∈ (segs (B ++ c)).dropLast ++
        segs ((segs (B ++ c)).getLastD [] ++ cs.flatten), isStopLine l = false := by
      rw [hseg]
      intro l hl
      apply hns l
      rw [List.flatten_cons, ← List.append_assoc]
      exact hl
    obtain ⟨e₁, b₁, e₂, b₂, bL, H1, H2, H3, H4⟩ :=
      processSegs_split parse (segs (B ++ c)) cs.flatten hAne hAnf hns'
    rw [hseg] at H1
    have hres' := processSegs_residue parse (segs (B ++ c)) hAne hAnf H2
    have hns'' := processSegs_preserves_noStop parse (segs (B ++ c)) cs.flatten
      hAne hAnf hns' H2
    obtain ⟨E', Bf, BL', G1, G2, G3⟩ := ih b₁ hres' hns''
    have heq : ((E' : List Str), BL', (false : Bool)) = (e₂, b₂, false) := by
      rw [← G2, ← H3]
      rfl
    have hE : E' = e₂ := by
      have := congrArg (fun p => p.1) heq
      simpa using this
    have hBL : BL' = b₂ := by
      have := congrArg (fun p => p.2.1) heq
      simpa using this
    refine ⟨e₁ ++ e₂, Bf, bL, ?_, ?_, ?_⟩
    · rw [feedChunks_cons]
      simp only [show processLines parse (B ++ c) = (e₁, b₁, false) from H2,
        show feedChunks parse cs b₁ false = (E', Bf, false) from G1, hE]
    · rw [List.flatten_cons, ← List.append_assoc, processLines]
      exact H1
    · exact bufEq_trans (hBL ▸ G3) (bufEq_symm H4)

/-- The final flush emits the same deltas on `bufEq`-related buffers. -/
theorem flushEmits_bufEq (parse : Parse) {a b : Str} (h : bufEq a b) :
    flushEmits parse a = flushEmits parse b := by
  obtain ⟨hk, hr⟩ := h
  have htrim : (trimC a = []) ↔ (trimC b = []) := by
    rw [trimC_eq_nil_iff, trimC_eq_nil_iff, ← first_rest a, ← first_rest b]
    rw [List.forall_mem_append, List.forall_mem_append, hr]
    exact and_congr_left' (allWs_key hk)
  by_cases ht : trimC a = []
  · rw [flushEmits, flushEmits, if_pos ht, if_pos (htrim.mp ht)]
  · rw [flushEmits, flushEmits, if_neg ht, if_neg fun hh => ht (htrim.mpr hh)]
    rcases segs_first_rest a with ⟨h0, hsa⟩ | ⟨r, h0, hsa⟩
    · rcases segs_first_rest b with ⟨h0b, hsb⟩ | ⟨r', h0b, hsb⟩
      · rw [hsa, hsb, List.filterMap_cons, List.filterMap_cons,
          flushLine_key parse hk]
      · rw [← hr, h0] at h0b
        cases h0b
    · rcases segs_first_rest b with ⟨h0b, hsb⟩ | ⟨r', h0b, hsb⟩
      · rw [← hr, h0] at h0b
        cases h0b
      · rw [← hr, h0] at h0b
        have hrr : r = r' := by injection h0b
        subst hrr
        rw [hsa, hsb, List.filterMap_cons, List.filterMap_cons,
          flushLine_key parse hk]

/-!
Claim C1: chunk-boundary invariance of the stream decoder.
-/

/-- Counterexample for C1 as stated: when a `data: [DONE]` line ends one
chunk and a data line follows in the next chunk, the chunked run emits
nothing (the loop stops and never reads the second chunk) while the
single concatenated call emits the delta (the final flush processes the
buffered line after the sentinel). -/
theorem streamChat_chunk_invariance_cex :
    streamChatDecode parseFix ["data: [DONE]\n".toList, "data: \x7b1\x7d\n".toList] = [] ∧
    streamChatDecode parseFix
      [("data: [DONE]\n".toList ++ "data: \x7b1\x7d\n".toList)] = ["A".toList] ∧
    ([] : List Str) ≠ ["A".toList] := by
  exact ⟨by decide, by decide, by decide⟩

/-- C1 (amended): chunk-boundary invariance holds for every chunk
sequence whose concatenation contains no `data: [DONE]` sentinel line:
the emitted delta events (hence their concatenation) are identical to
those of a single call on the concatenated stream. -/
theorem streamChat_chunk_invariance_noDone (parse : Parse) (chunks : List Str)
    (h : ((segs chunks.flatten).all fun l => !(isStopLine l)) = true) :
    streamChatDecode parse chunks = streamChatDecode parse [chunks.flatten] := by
  have hns : ∀ l ∈ segs chunks.flatten, isStopLine l = false := by
    intro l hl
    have := List.all_eq_true.mp h l hl
    simpa using this
  have hres : ∃ b₂, processLines parse [] = ([], b₂, false) ∧ bufEq ([] : Str) b₂ :=
    ⟨[], rfl, bufEq_refl []⟩
  obtain ⟨E, Bf, BL, G1, G2, G3⟩ := feedChunks_bridge parse chunks [] hres
    (by intro l hl; exact hns l (by simpa using hl))
  simp only [streamChatDecode, G1, feedChunks_cons]
  simp only [show processLines parse ([] ++ chunks.flatten) = (E, BL, false) from G2]
  simp only [show feedChunks parse [] BL false = ([], BL, false) from rfl]
  simp [flushEmits_bufEq parse G3]

/-- Witness for C1 (amended) on a concrete sentinel-free chunk sequence
that splits a data line across the boundary. -/
theorem streamChat_chunk_invariance_noDone_witness :
    ((segs (["data: \x7b1".toList, "\x7d\n".toList] : List Str).flatten).all
      fun l => !(isStopLine l)) = true ∧
    streamChatDecode parseFix ["data: \x7b1".toList, "\x7d\n".toList] =
      streamChatDecode parseFix
        [(["data: \x7b1".toList, "\x7d\n".toList] : List Str).flatten] :=
  ⟨by decide,
   streamChat_chunk_invariance_noDone parseFix
     ["data: \x7b1".toList, "\x7d\n".toList] (by decide)⟩

/-!
Claim C2: sentinel termination.
-/

/-- Counterexample for C2 as stated: a data line following `data: [DONE]`
in the same buffered flush does produce a delta event, emitted by the
final flush. -/
theorem streamChat_done_sentinel_cex :
    streamChatDecode parseFix ["data: [DONE]\ndata: \x7b1\x7d\n".toList] = ["A".toList] ∧
    (["A".toList] : List Str) ≠ [] := by
  exact ⟨by decide, by decide⟩

/-- C2 (amended): the sentinel stops the incremental loop — no further
line of the current buffer is processed by the loop (the remainder is
left in the buffer for the final flush) — and once the stream is marked
done, no further chunk is read. -/
theorem streamChat_done_stops_loop :
    (∀ (parse : Parse) (rest : Str),
      processLines parse ("data: [DONE]".toList ++ '\n' :: rest) = ([], rest, true)) ∧
    (∀ (parse : Parse) (cs : List Str) (buf : Str),
      feedChunks parse cs buf true = ([], buf, true)) := by
  constructor
  · intro parse rest
    rw [processLines, segs_append_nl (by decide)]
    cases hr : segs rest with
    | nil => exact absurd hr (segs_ne_nil rest)
    | cons s ss =>
      rw [processSegs_cons2]
      have hstop : lineStep parse ("data: [DONE]".toList) = .stop := rfl
      rw [hstop]
      show ([], unsegs (s :: ss), true) = ([], rest, true)
      rw [← hr, unsegs_segs]
  · intro parse cs buf
    cases cs with
    | nil => rfl
    | cons c cs' => rfl

